import Mathlib

/-!
Verification of the maze-builder-solver core: a shallow embedding of the
grid model (`models/role.py`, `models/border.py`, `models/square.py`,
`models/maze.py`), the grid-to-graph conversion (`graphs/converter.py`),
the solver layer (`graphs/solver.py`), the solution model
(`models/solution.py`) and the serializer (`persistence/serializer.py`,
`persistence/file_format.py`), together with theorems settling the
specification's claims about them.

Python conventions carried over by the embedding: an `IntFlag` border is a
natural-number bitmask; fatal failures (assertion errors, `StopIteration`,
`IndexError`, `ValueError`) are modelled by `Option`/`Except` results being
`none`/`error`; tuple indexing follows Python semantics (negative indices
count from the end).
-/

set_option maxHeartbeats 1000000

namespace MazeSolver

/-- Role of a square (`models/role.py`): NONE = 0, ENEMY = 1, ENTRANCE = 2,
EXIT = 3, EXTERIOR = 4, REWARD = 5, WALL = 6. -/
inductive Role where
  | NONE
  | ENEMY
  | ENTRANCE
  | EXIT
  | EXTERIOR
  | REWARD
  | WALL
deriving DecidableEq, Repr

/-- Integer value of a role (`IntEnum` values, declaration order). -/
def Role.val : Role → Nat
  | .NONE => 0
  | .ENEMY => 1
  | .ENTRANCE => 2
  | .EXIT => 3
  | .EXTERIOR => 4
  | .REWARD => 5
  | .WALL => 6

/-- Python `Role(n)`: the role with value `n`, or a `ValueError` (`none`). -/
def Role.ofVal : Nat → Option Role
  | 0 => some .NONE
  | 1 => some .ENEMY
  | 2 => some .ENTRANCE
  | 3 => some .EXIT
  | 4 => some .EXTERIOR
  | 5 => some .REWARD
  | 6 => some .WALL
  | _ => none

namespace Border

/-- `Border.TOP` (`models/border.py`, `auto()` order). -/
def TOP : Nat := 1

/-- `Border.BOTTOM`. -/
def BOTTOM : Nat := 2

/-- `Border.LEFT`. -/
def LEFT : Nat := 4

/-- `Border.RIGHT`. -/
def RIGHT : Nat := 8

end Border

/-- Binary digit recursion with structural fuel; `fuel ≥ n` always
suffices because the argument at least halves each step. -/
def bitCountAux : Nat → Nat → Nat
  | 0, _ => 0
  | fuel + 1, n => if n = 0 then 0 else n % 2 + bitCountAux fuel (n / 2)

/-- Python `int.bit_count`: number of set binary digits. -/
def bitCount (n : Nat) : Nat := bitCountAux n n

/-- `Border.intersection` (`models/border.py`): fewer than 2 bits set. -/
def Border.intersection (b : Nat) : Bool := bitCount b < 2

/-- `Border.dead_end` (`models/border.py`): exactly 3 bits set. -/
def Border.dead_end (b : Nat) : Bool := bitCount b == 3

/-- `Border.corner` (`models/border.py`): the bitmask is equal to one of the
four perpendicular two-wall combinations (tuple membership in Python is a
disjunction of equality tests). -/
def Border.corner (b : Nat) : Bool :=
  b == (TOP ||| LEFT) || b == (TOP ||| RIGHT) ||
    b == (BOTTOM ||| LEFT) || b == (BOTTOM ||| RIGHT)

/-- A square of the maze (`models/square.py`): linear index, row, column,
border bitmask and role. -/
structure Square where
  index : Nat
  row : Nat
  column : Nat
  border : Nat
  role : Role
deriving DecidableEq, Repr

/-- The maze (`models/maze.py`): an ordered sequence of squares. -/
structure Maze where
  squares : List Square
deriving DecidableEq, Repr

/-- `Maze.width`: maximum column + 1 (Python `max` over a nonempty
sequence; a constructed maze is nonempty, see `mkMaze`). -/
def Maze.width (m : Maze) : Nat :=
  (m.squares.map Square.column).foldr Nat.max 0 + 1

/-- `Maze.height`: maximum row + 1. -/
def Maze.height (m : Maze) : Nat :=
  (m.squares.map Square.row).foldr Nat.max 0 + 1

/-- `maze.squares[i]` at an index that is in bounds whenever the maze is
well formed; out of bounds it returns a placeholder square (Python would
raise `IndexError`; the theorems below only use it under well-formedness). -/
def Maze.sqAt (m : Maze) (i : Nat) : Square :=
  m.squares.getD i ⟨0, 0, 0, 0, Role.NONE⟩

/-- `validate_indices` (`models/maze.py`): the `.index` fields enumerate
`0 .. n-1` in order. -/
def validate_indices (m : Maze) : Bool :=
  m.squares.map Square.index == List.range m.squares.length

/-- `validate_rows_columns` (`models/maze.py`): for every `y < height` and
`x < width`, the square at position `y * width + x` has `.row = y` and
`.column = x`; an out-of-range access is Python's `IndexError`, which also
makes construction fail. -/
def validate_rows_columns (m : Maze) : Bool :=
  (List.range m.height).all fun y =>
    (List.range m.width).all fun x =>
      match m.squares[y * m.width + x]? with
      | some sq => sq.row == y && sq.column == x
      | none => false

/-- `Maze.__post_init__` (`models/maze.py`): construction runs
`validate_indices` and `validate_rows_columns` (and only those two
validators); on an empty square sequence the `max` inside width/height
raises `ValueError`, so construction fails there as well. -/
def mkMaze (l : List Square) : Option Maze :=
  let m : Maze := ⟨l⟩
  if l.isEmpty then none
  else if validate_indices m && validate_rows_columns m then some m
  else none

/-- `validate_entrance` (`models/maze.py`): exactly one ENTRANCE square.
Defined in the source but never invoked by `Maze.__post_init__` (nor by any
other code in the repository). -/
def validate_entrance (m : Maze) : Bool :=
  (m.squares.countP fun sq => sq.role == Role.ENTRANCE) == 1

/-- `validate_exit` (`models/maze.py`): exactly one EXIT square. Also never
invoked. -/
def validate_exit (m : Maze) : Bool :=
  (m.squares.countP fun sq => sq.role == Role.EXIT) == 1

/-- `Maze.entrance` (`models/maze.py`): `next(sq for sq in self if sq.role
is Role.ENTRANCE)` — the first match in square order; `none` models the
`StopIteration` raised when there is no match. -/
def Maze.entranceFind (m : Maze) : Option Square :=
  m.squares.find? fun sq => sq.role == Role.ENTRANCE

/-- `Maze.exit`: first square with role EXIT, `StopIteration` if none. -/
def Maze.exitFind (m : Maze) : Option Square :=
  m.squares.find? fun sq => sq.role == Role.EXIT

/-- Python tuple indexing `t[i]` for `int` `i`: nonnegative indices from the
front, negative indices count from the end, `IndexError` (`none`) outside
`-n .. n-1`. -/
def pyTupleGet (l : List Square) (i : Int) : Option Square :=
  if 0 ≤ i then l[i.toNat]?
  else if 0 ≤ i + l.length then l[(i + l.length).toNat]?
  else none

/-- `Maze.__getitem__` (`models/maze.py`): `self.squares[index]`. -/
def Maze.getitem (m : Maze) (i : Int) : Option Square :=
  pyTupleGet m.squares i

/-- The node predicate implicit in the `get_nodes` loop
(`graphs/converter.py`): skip EXTERIOR/WALL squares; add a square when its
role is not NONE, or when its border is an intersection, a dead end or a
corner. -/
def nodePred (sq : Square) : Bool :=
  if sq.role == Role.EXTERIOR || sq.role == Role.WALL then false
  else
    (sq.role != Role.NONE) || Border.intersection sq.border ||
      Border.dead_end sq.border || Border.corner sq.border

/-- `get_nodes` (`graphs/converter.py`): the set of squares the loop adds;
set membership coincides with membership in this filtered list. -/
def get_nodes (m : Maze) : List Square :=
  m.squares.filter nodePred

/-- The specification's node characterization, written from the spec text:
role not EXTERIOR and not WALL, and (role not NONE, or a junction with
fewer than 2 walls, or a dead end with exactly 3 walls, or a corner with
exactly two perpendicular walls — TOP+LEFT, TOP+RIGHT, BOTTOM+LEFT or
BOTTOM+RIGHT; parallel pairs do not qualify). -/
def specIsNode (sq : Square) : Prop :=
  (sq.role ≠ Role.EXTERIOR ∧ sq.role ≠ Role.WALL) ∧
  (sq.role ≠ Role.NONE ∨ bitCount sq.border < 2 ∨ bitCount sq.border = 3 ∨
    sq.border = Border.TOP + Border.LEFT ∨
    sq.border = Border.TOP + Border.RIGHT ∨
    sq.border = Border.BOTTOM + Border.LEFT ∨
    sq.border = Border.BOTTOM + Border.RIGHT)

/-- The source's node predicate agrees with the spec's characterization. -/
theorem nodePred_iff_specIsNode (sq : Square) :
    nodePred sq = true ↔ specIsNode sq := by
  have e1 : Border.TOP ||| Border.LEFT = Border.TOP + Border.LEFT := by decide
  have e2 : Border.TOP ||| Border.RIGHT = Border.TOP + Border.RIGHT := by
    decide
  have e3 : Border.BOTTOM ||| Border.LEFT = Border.BOTTOM + Border.LEFT := by
    decide
  have e4 : Border.BOTTOM ||| Border.RIGHT = Border.BOTTOM + Border.RIGHT :=
    by decide
  rw [nodePred, specIsNode, Border.intersection, Border.dead_end,
    Border.corner, e1, e2, e3, e4]
  cases sq.role <;> simp <;> tauto

/-- C4: a square is a node exactly when its role is not EXTERIOR/WALL and
(its role is not NONE, or it is a junction, dead end, or perpendicular-wall
corner); in particular every ENTRANCE, EXIT, REWARD and ENEMY square of the
maze is a node, and no WALL or EXTERIOR square ever is. -/
theorem C4_node_set_characterization (m : Maze) (sq : Square) :
    (sq ∈ get_nodes m ↔ sq ∈ m.squares ∧ specIsNode sq) ∧
    (sq ∈ m.squares →
      (sq.role = Role.ENTRANCE ∨ sq.role = Role.EXIT ∨
        sq.role = Role.REWARD ∨ sq.role = Role.ENEMY) →
      sq ∈ get_nodes m) ∧
    ((sq.role = Role.WALL ∨ sq.role = Role.EXTERIOR) →
      sq ∉ get_nodes m) := by
  have hmem : sq ∈ get_nodes m ↔ sq ∈ m.squares ∧ specIsNode sq := by
    rw [get_nodes, List.mem_filter, nodePred_iff_specIsNode]
  refine ⟨hmem, ?_, ?_⟩
  · intro hsq hrole
    refine hmem.mpr ⟨hsq, ?_, ?_⟩
    · rcases hrole with h | h | h | h <;> rw [h] <;> exact ⟨by simp, by simp⟩
    · left
      rcases hrole with h | h | h | h <;> rw [h] <;> simp
  · intro hrole hmem2
    rcases (hmem.mp hmem2).2.1 with ⟨h1, h2⟩
    rcases hrole with h | h
    · exact h2 h
    · exact h1 h

/-- An edge between two nodes (`graphs/converter.py` `Edge`): an ordered
pair of squares. -/
structure Edge where
  node1 : Square
  node2 : Square
deriving DecidableEq, Repr

/-- `Edge.flip`: the edge with the two nodes exchanged. -/
def Edge.flip (e : Edge) : Edge := ⟨e.node2, e.node1⟩

/-- The rightward scan loop of `get_edges` (`graphs/converter.py`): `cur`
is the loop variable `node`, `xs` the remaining values of
`range(source.column + 1, maze.width)`. The loop breaks without an edge on
a RIGHT wall bit of the cell it stands on, steps to the square at index
`node.row * width + x`, and records an edge and breaks as soon as that
square is a node. -/
def followRightFrom (m : Maze) (nodes : List Square) (source : Square) :
    Square → List Nat → Option Edge
  | _, [] => none
  | cur, x :: xs =>
    if cur.border &&& Border.RIGHT ≠ 0 then none
    else if m.sqAt (cur.row * m.width + x) ∈ nodes then
      some ⟨source, m.sqAt (cur.row * m.width + x)⟩
    else followRightFrom m nodes source (m.sqAt (cur.row * m.width + x)) xs

/-- The rightward scan of `get_edges` started at a node. -/
def followRight (m : Maze) (nodes : List Square) (source : Square) :
    Option Edge :=
  followRightFrom m nodes source source
    (List.range' (source.column + 1) (m.width - (source.column + 1)))

/-- The downward scan loop of `get_edges`: `ys` are the remaining values of
`range(source.row + 1, maze.height)`, the wall bit tested is BOTTOM, and
the step goes to the square at index `y * width + node.column`. -/
def followDownFrom (m : Maze) (nodes : List Square) (source : Square) :
    Square → List Nat → Option Edge
  | _, [] => none
  | cur, y :: ys =>
    if cur.border &&& Border.BOTTOM ≠ 0 then none
    else if m.sqAt (y * m.width + cur.column) ∈ nodes then
      some ⟨source, m.sqAt (y * m.width + cur.column)⟩
    else followDownFrom m nodes source (m.sqAt (y * m.width + cur.column)) ys

/-- The downward scan of `get_edges` started at a node. -/
def followDown (m : Maze) (nodes : List Square) (source : Square) :
    Option Edge :=
  followDownFrom m nodes source source
    (List.range' (source.row + 1) (m.height - (source.row + 1)))

/-- `get_edges` (`graphs/converter.py`): for every node, the rightward scan
then the downward scan, each contributing at most one edge; the set the
Python code accumulates is this list up to membership. -/
def get_edges (m : Maze) (nodes : List Square) : List Edge :=
  nodes.foldr
    (fun s acc =>
      (followRight m nodes s).toList ++ (followDown m nodes s).toList ++ acc)
    []

/-- `get_directed_edges` (`graphs/converter.py`): the undirected edges
together with their flips. -/
def get_directed_edges (m : Maze) (nodes : List Square) : List Edge :=
  get_edges m nodes ++ (get_edges m nodes).map Edge.flip

/-- Decidable well-formedness of a maze: the squares tile the
width × height rectangle in row-major order with consistent
index/row/column fields. This is what the spec's construction-time
validation guarantees for every valid grid. -/
def wellFormed (m : Maze) : Bool :=
  m.squares.length == m.width * m.height &&
    (List.range m.squares.length).all fun i =>
      (m.sqAt i).index == i && (m.sqAt i).row == i / m.width &&
        (m.sqAt i).column == i % m.width

/-- A well-formed maze has as many squares as grid positions. -/
theorem wf_length {m : Maze} (h : wellFormed m = true) :
    m.squares.length = m.width * m.height := by
  rw [wellFormed, Bool.and_eq_true] at h
  simpa using h.1

/-- Field consistency of each square of a well-formed maze. -/
theorem wf_sqAt {m : Maze} (h : wellFormed m = true) {i : Nat}
    (hi : i < m.squares.length) :
    (m.sqAt i).index = i ∧ (m.sqAt i).row = i / m.width ∧
      (m.sqAt i).column = i % m.width := by
  rw [wellFormed, Bool.and_eq_true, List.all_eq_true] at h
  have := h.2 i (List.mem_range.mpr hi)
  simp only [Bool.and_eq_true, beq_iff_eq] at this
  exact ⟨this.1.1, this.1.2, this.2⟩

/-- In range, `sqAt` is real list access. -/
theorem sqAt_eq_getElem {m : Maze} {i : Nat} (h : i < m.squares.length) :
    m.sqAt i = m.squares[i] := by
  rw [Maze.sqAt, List.getD_eq_getElem?_getD, List.getElem?_eq_getElem h,
    Option.getD_some]

/-- Position data of a member square of a well-formed maze. -/
theorem wf_of_mem {m : Maze} {sq : Square} (h : wellFormed m = true)
    (hsq : sq ∈ m.squares) :
    sq.index < m.squares.length ∧ m.sqAt sq.index = sq ∧
      sq.row < m.height ∧ sq.column < m.width ∧
      sq.index = sq.row * m.width + sq.column := by
  obtain ⟨i, hi, hget⟩ := List.mem_iff_getElem.mp hsq
  have hs : m.sqAt i = sq := by rw [sqAt_eq_getElem hi, hget]
  obtain ⟨hidx, hrow, hcol⟩ := wf_sqAt h hi
  rw [hs] at hidx hrow hcol
  have hwpos : 0 < m.width := Nat.succ_pos _
  have hlen := wf_length h
  refine ⟨hidx ▸ hi, hidx ▸ hs, ?_, ?_, ?_⟩
  · rw [hrow]
    have hlt : i < m.height * m.width := by rw [Nat.mul_comm]; omega
    exact (Nat.div_lt_iff_lt_mul hwpos).mpr hlt
  · rw [hcol]
    exact Nat.mod_lt _ hwpos
  · rw [hidx, hrow, hcol, Nat.mul_comm (i / m.width) m.width]
    exact (Nat.div_add_mod i m.width).symm

/-- The square stored at grid position `(r, t)` of a well-formed maze. -/
theorem cell_fields {m : Maze} (h : wellFormed m = true) {r t : Nat}
    (hr : r < m.height) (ht : t < m.width) :
    r * m.width + t < m.squares.length ∧
      (m.sqAt (r * m.width + t)).row = r ∧
      (m.sqAt (r * m.width + t)).column = t := by
  have hwpos : 0 < m.width := Nat.succ_pos _
  have hlen := wf_length h
  have hlt : r * m.width + t < m.squares.length := by
    rw [hlen]
    calc r * m.width + t < r * m.width + m.width := by omega
    _ = (r + 1) * m.width := by ring
    _ ≤ m.height * m.width := Nat.mul_le_mul_right _ (by omega)
    _ = m.width * m.height := Nat.mul_comm _ _
  obtain ⟨_, hrow, hcol⟩ := wf_sqAt h hlt
  refine ⟨hlt, ?_, ?_⟩
  · rw [hrow, Nat.mul_comm, Nat.mul_add_div hwpos, Nat.div_eq_of_lt ht]
    omega
  · rw [hcol, Nat.mul_comm, Nat.mul_add_mod, Nat.mod_eq_of_lt ht]

/-- Spec-side rightward corridor scan from node `s`: the scan records edge
`e` exactly when some column `j` right of `s` holds the first node strictly
right of `s` in its row, no square from `s` up to the square immediately
before column `j` has its RIGHT wall bit set, and `e` joins `s` to that
node. Only the RIGHT bits of the squares the walk stands on appear; LEFT
bits of entered squares are never consulted. -/
def rightScanSpec (m : Maze) (nodes : List Square) (s : Square)
    (e : Edge) : Prop :=
  ∃ j, s.column < j ∧ j < m.width ∧
    m.sqAt (s.row * m.width + j) ∈ nodes ∧
    (∀ t, s.column < t → t < j → m.sqAt (s.row * m.width + t) ∉ nodes) ∧
    (∀ t, s.column ≤ t → t < j →
      (m.sqAt (s.row * m.width + t)).border &&& Border.RIGHT = 0) ∧
    e = ⟨s, m.sqAt (s.row * m.width + j)⟩

/-- Spec-side downward corridor scan from node `s`: as `rightScanSpec` but
along the column, consulting only BOTTOM bits of the squares stood upon. -/
def downScanSpec (m : Maze) (nodes : List Square) (s : Square)
    (e : Edge) : Prop :=
  ∃ j, s.row < j ∧ j < m.height ∧
    m.sqAt (j * m.width + s.column) ∈ nodes ∧
    (∀ t, s.row < t → t < j → m.sqAt (t * m.width + s.column) ∉ nodes) ∧
    (∀ t, s.row ≤ t → t < j →
      (m.sqAt (t * m.width + s.column)).border &&& Border.BOTTOM = 0) ∧
    e = ⟨s, m.sqAt (j * m.width + s.column)⟩

/-- Loop invariant of the rightward scan: standing on the square of column
`x` of the source's row with the columns `x+1 .. x+k` left to visit, the
loop returns edge `e` exactly when some `j` in that span holds the first
remaining node, with no RIGHT wall bit from column `x` up to `j - 1`. -/
theorem followRightFrom_spec (m : Maze) (nodes : List Square) (s : Square)
    (hwf : wellFormed m = true) (hrow : s.row < m.height) :
    ∀ (k x : Nat) (e : Edge), x < m.width → x + 1 + k ≤ m.width →
      (followRightFrom m nodes s (m.sqAt (s.row * m.width + x))
          (List.range' (x + 1) k) = some e ↔
        ∃ j, x < j ∧ j < x + 1 + k ∧
          m.sqAt (s.row * m.width + j) ∈ nodes ∧
          (∀ t, x < t → t < j → m.sqAt (s.row * m.width + t) ∉ nodes) ∧
          (∀ t, x ≤ t → t < j →
            (m.sqAt (s.row * m.width + t)).border &&& Border.RIGHT = 0) ∧
          e = ⟨s, m.sqAt (s.row * m.width + j)⟩) := by
  intro k
  induction k with
  | zero =>
    intro x e hx hxk
    constructor
    · intro h
      simp [List.range', followRightFrom] at h
    · rintro ⟨j, hj1, hj2, _⟩
      omega
  | succ k ih =>
    intro x e hx hxk
    have hx1 : x + 1 < m.width := by omega
    have hcr : (m.sqAt (s.row * m.width + x)).row = s.row :=
      (cell_fields hwf hrow hx).2.1
    rw [List.range'_succ]
    simp only [followRightFrom]
    rw [hcr]
    by_cases hwall : (m.sqAt (s.row * m.width + x)).border &&& Border.RIGHT = 0
    · rw [if_neg (not_not_intro hwall)]
      by_cases hn : m.sqAt (s.row * m.width + (x + 1)) ∈ nodes
      · rw [if_pos hn]
        constructor
        · intro h
          refine ⟨x + 1, by omega, by omega, hn, ?_, ?_, ?_⟩
          · intro t ht1 ht2
            omega
          · intro t ht1 ht2
            have ht : t = x := by omega
            rw [ht]
            exact hwall
          · exact (Option.some_inj.mp h).symm
        · rintro ⟨j, hj1, hj2, hnode, hnn, hwl, he⟩
          have hj : j = x + 1 := by
            by_contra hne
            exact (hnn (x + 1) (by omega) (by omega)) hn
          rw [he, hj]
      · rw [if_neg hn]
        rw [ih (x + 1) e hx1 (by omega)]
        constructor
        · rintro ⟨j, hj1, hj2, hnode, hnn, hwl, he⟩
          refine ⟨j, by omega, by omega, hnode, ?_, ?_, he⟩
          · intro t ht1 ht2
            rcases Nat.lt_or_ge t (x + 2) with h2 | h2
            · have ht : t = x + 1 := by omega
              rw [ht]
              exact hn
            · exact hnn t (by omega) ht2
          · intro t ht1 ht2
            rcases Nat.lt_or_ge t (x + 1) with h2 | h2
            · have ht : t = x := by omega
              rw [ht]
              exact hwall
            · exact hwl t h2 ht2
        · rintro ⟨j, hj1, hj2, hnode, hnn, hwl, he⟩
          have hj : x + 1 < j := by
            rcases Nat.lt_or_ge (x + 1) j with h2 | h2
            · exact h2
            · have hje : j = x + 1 := by omega
              rw [hje] at hnode
              exact absurd hnode hn
          refine ⟨j, hj, by omega, hnode, ?_, ?_, he⟩
          · intro t ht1 ht2
            exact hnn t (by omega) ht2
          · intro t ht1 ht2
            exact hwl t (by omega) ht2
    · rw [if_pos hwall]
      constructor
      · intro h
        simp at h
      · rintro ⟨j, hj1, hj2, hnode, hnn, hwl, he⟩
        exact absurd (hwl x (Nat.le_refl x) hj1) hwall

/-- Loop invariant of the downward scan, the row analogue of
`followRightFrom_spec`. -/
theorem followDownFrom_spec (m : Maze) (nodes : List Square) (s : Square)
    (hwf : wellFormed m = true) (hcol : s.column < m.width) :
    ∀ (k x : Nat) (e : Edge), x < m.height → x + 1 + k ≤ m.height →
      (followDownFrom m nodes s (m.sqAt (x * m.width + s.column))
          (List.range' (x + 1) k) = some e ↔
        ∃ j, x < j ∧ j < x + 1 + k ∧
          m.sqAt (j * m.width + s.column) ∈ nodes ∧
          (∀ t, x < t → t < j → m.sqAt (t * m.width + s.column) ∉ nodes) ∧
          (∀ t, x ≤ t → t < j →
            (m.sqAt (t * m.width + s.column)).border &&& Border.BOTTOM = 0) ∧
          e = ⟨s, m.sqAt (j * m.width + s.column)⟩) := by
  intro k
  induction k with
  | zero =>
    intro x e hx hxk
    constructor
    · intro h
      simp [List.range', followDownFrom] at h
    · rintro ⟨j, hj1, hj2, _⟩
      omega
  | succ k ih =>
    intro x e hx hxk
    have hx1 : x + 1 < m.height := by omega
    have hcc : (m.sqAt (x * m.width + s.column)).column = s.column :=
      (cell_fields hwf hx hcol).2.2
    rw [List.range'_succ]
    simp only [followDownFrom]
    rw [hcc]
    by_cases hwall :
        (m.sqAt (x * m.width + s.column)).border &&& Border.BOTTOM = 0
    · rw [if_neg (not_not_intro hwall)]
      by_cases hn : m.sqAt ((x + 1) * m.width + s.column) ∈ nodes
      · rw [if_pos hn]
        constructor
        · intro h
          refine ⟨x + 1, by omega, by omega, hn, ?_, ?_, ?_⟩
          · intro t ht1 ht2
            omega
          · intro t ht1 ht2
            have ht : t = x := by omega
            rw [ht]
            exact hwall
          · exact (Option.some_inj.mp h).symm
        · rintro ⟨j, hj1, hj2, hnode, hnn, hwl, he⟩
          have hj : j = x + 1 := by
            by_contra hne
            exact (hnn (x + 1) (by omega) (by omega)) hn
          rw [he, hj]
      · rw [if_neg hn]
        rw [ih (x + 1) e hx1 (by omega)]
        constructor
        · rintro ⟨j, hj1, hj2, hnode, hnn, hwl, he⟩
          refine ⟨j, by omega, by omega, hnode, ?_, ?_, he⟩
          · intro t ht1 ht2
            rcases Nat.lt_or_ge t (x + 2) with h2 | h2
            · have ht : t = x + 1 := by omega
              rw [ht]
              exact hn
            · exact hnn t (by omega) ht2
          · intro t ht1 ht2
            rcases Nat.lt_or_ge t (x + 1) with h2 | h2
            · have ht : t = x := by omega
              rw [ht]
              exact hwall
            · exact hwl t h2 ht2
        · rintro ⟨j, hj1, hj2, hnode, hnn, hwl, he⟩
          have hj : x + 1 < j := by
            rcases Nat.lt_or_ge (x + 1) j with h2 | h2
            · exact h2
            · have hje : j = x + 1 := by omega
              rw [hje] at hnode
              exact absurd hnode hn
          refine ⟨j, hj, by omega, hnode, ?_, ?_, he⟩
          · intro t ht1 ht2
            exact hnn t (by omega) ht2
          · intro t ht1 ht2
            exact hwl t (by omega) ht2
    · rw [if_pos hwall]
      constructor
      · intro h
        simp at h
      · rintro ⟨j, hj1, hj2, hnode, hnn, hwl, he⟩
        exact absurd (hwl x (Nat.le_refl x) hj1) hwall

/-- The rightward scan from a member node is exactly the spec's rightward
corridor scan. -/
theorem followRight_spec (m : Maze) (nodes : List Square) (s : Square)
    (e : Edge) (hwf : wellFormed m = true) (hs : s ∈ m.squares) :
    followRight m nodes s = some e ↔ rightScanSpec m nodes s e := by
  obtain ⟨hidx, hback, hrow, hcol, hpos⟩ := wf_of_mem hwf hs
  have hstart : m.sqAt (s.row * m.width + s.column) = s := by
    rw [← hpos]
    exact hback
  have hinst := followRightFrom_spec m nodes s hwf hrow
    (m.width - (s.column + 1)) s.column e hcol (by omega)
  rw [hstart] at hinst
  have harith : s.column + 1 + (m.width - (s.column + 1)) = m.width := by
    omega
  rw [harith] at hinst
  simp only [followRight, rightScanSpec]
  exact hinst

/-- The downward scan from a member node is exactly the spec's downward
corridor scan. -/
theorem followDown_spec (m : Maze) (nodes : List Square) (s : Square)
    (e : Edge) (hwf : wellFormed m = true) (hs : s ∈ m.squares) :
    followDown m nodes s = some e ↔ downScanSpec m nodes s e := by
  obtain ⟨hidx, hback, hrow, hcol, hpos⟩ := wf_of_mem hwf hs
  have hstart : m.sqAt (s.row * m.width + s.column) = s := by
    rw [← hpos]
    exact hback
  have hinst := followDownFrom_spec m nodes s hwf hcol
    (m.height - (s.row + 1)) s.row e hrow (by omega)
  rw [hstart] at hinst
  have harith : s.row + 1 + (m.height - (s.row + 1)) = m.height := by omega
  rw [harith] at hinst
  simp only [followDown, downScanSpec]
  exact hinst

/-- Folding the per-node scans accumulates exactly the per-node
contributions. -/
theorem mem_foldr_scans (m : Maze) (nodes : List Square) (e : Edge) :
    ∀ ns : List Square,
      e ∈ ns.foldr
          (fun s acc =>
            (followRight m nodes s).toList ++
              (followDown m nodes s).toList ++ acc) [] ↔
        ∃ s ∈ ns, followRight m nodes s = some e ∨
          followDown m nodes s = some e := by
  intro ns
  induction ns with
  | nil => simp
  | cons a l ih =>
    simp only [List.foldr_cons, List.mem_append, ih, List.mem_cons]
    rw [Option.mem_toList, Option.mem_toList]
    constructor
    · rintro ((h | h) | ⟨s, hs, hd⟩)
      · exact ⟨a, Or.inl rfl, Or.inl h⟩
      · exact ⟨a, Or.inl rfl, Or.inr h⟩
      · exact ⟨s, Or.inr hs, hd⟩
    · rintro ⟨s, (rfl | hs), hd⟩
      · rcases hd with h | h
        · exact Or.inl (Or.inl h)
        · exact Or.inl (Or.inr h)
      · exact Or.inr ⟨s, hs, hd⟩

/-- Membership in `get_edges` is a per-node right-or-down contribution. -/
theorem mem_get_edges (m : Maze) (nodes : List Square) (e : Edge) :
    e ∈ get_edges m nodes ↔
      ∃ s ∈ nodes, followRight m nodes s = some e ∨
        followDown m nodes s = some e := by
  rw [get_edges]
  exact mem_foldr_scans m nodes e nodes

/-- A node's rightward corridor scan determines at most one edge. -/
theorem rightScanSpec_unique {m : Maze} {nodes : List Square} {s : Square}
    {e1 e2 : Edge} (h1 : rightScanSpec m nodes s e1)
    (h2 : rightScanSpec m nodes s e2) : e1 = e2 := by
  obtain ⟨j1, h11, h12, hn1, hnn1, hw1, he1⟩ := h1
  obtain ⟨j2, h21, h22, hn2, hnn2, hw2, he2⟩ := h2
  have hj : j1 = j2 := by
    by_contra hne
    rcases Nat.lt_or_ge j1 j2 with h | h
    · exact (hnn2 j1 h11 h) hn1
    · exact (hnn1 j2 h21 (by omega)) hn2
  rw [he1, he2, hj]

/-- A node's downward corridor scan determines at most one edge. -/
theorem downScanSpec_unique {m : Maze} {nodes : List Square} {s : Square}
    {e1 e2 : Edge} (h1 : downScanSpec m nodes s e1)
    (h2 : downScanSpec m nodes s e2) : e1 = e2 := by
  obtain ⟨j1, h11, h12, hn1, hnn1, hw1, he1⟩ := h1
  obtain ⟨j2, h21, h22, hn2, hnn2, hw2, he2⟩ := h2
  have hj : j1 = j2 := by
    by_contra hne
    rcases Nat.lt_or_ge j1 j2 with h | h
    · exact (hnn2 j1 h11 h) hn1
    · exact (hnn1 j2 h21 (by omega)) hn2
  rw [he1, he2, hj]

/-- C5: an edge is extracted exactly when some node's rightward or downward
corridor scan yields it — the walk stops without an edge at a directional
wall bit of the square it stands on or at the grid boundary, and otherwise
records an edge to the first node reached; consequently each node
contributes at most one rightward and at most one downward edge. -/
theorem C5_edge_extraction (m : Maze) (nodes : List Square) (e : Edge)
    (hwf : wellFormed m = true) (hnodes : ∀ s ∈ nodes, s ∈ m.squares) :
    (e ∈ get_edges m nodes ↔
      ∃ s ∈ nodes, rightScanSpec m nodes s e ∨ downScanSpec m nodes s e) ∧
    (∀ s ∈ nodes, ∀ e1 e2 : Edge,
      (rightScanSpec m nodes s e1 → rightScanSpec m nodes s e2 → e1 = e2) ∧
      (downScanSpec m nodes s e1 → downScanSpec m nodes s e2 →
        e1 = e2)) := by
  constructor
  · rw [mem_get_edges]
    constructor
    · rintro ⟨s, hs, h | h⟩
      · exact ⟨s, hs,
          Or.inl ((followRight_spec m nodes s e hwf (hnodes s hs)).mp h)⟩
      · exact ⟨s, hs,
          Or.inr ((followDown_spec m nodes s e hwf (hnodes s hs)).mp h)⟩
    · rintro ⟨s, hs, h | h⟩
      · exact ⟨s, hs,
          Or.inl ((followRight_spec m nodes s e hwf (hnodes s hs)).mpr h)⟩
      · exact ⟨s, hs,
          Or.inr ((followDown_spec m nodes s e hwf (hnodes s hs)).mpr h)⟩
  · intro s hs e1 e2
    exact ⟨fun h1 h2 => rightScanSpec_unique h1 h2,
      fun h1 h2 => downScanSpec_unique h1 h2⟩

/-- C10: edge extraction consults only the wall bit of the square it
currently stands on in the scan direction — RIGHT when scanning rightward,
BOTTOM when scanning downward; the LEFT and TOP bits of entered squares are
never examined, so an edge to the next node in the scan direction is
recorded exactly when no square from the source up to the square
immediately before that node has the single directional bit set. -/
theorem C10_directional_bits_only (m : Maze) (nodes : List Square)
    (s : Square) (e : Edge) (hwf : wellFormed m = true)
    (hs : s ∈ m.squares) :
    (followRight m nodes s = some e ↔ rightScanSpec m nodes s e) ∧
    (followDown m nodes s = some e ↔ downScanSpec m nodes s e) :=
  ⟨followRight_spec m nodes s e hwf hs, followDown_spec m nodes s e hwf hs⟩

/-- The 4×3 reference maze from the repository's doc examples
(`models/maze.py` docstring): 12 squares, entrance at index 8, exit at
index 2. -/
def miniatureSquares : List Square :=
  [⟨0, 0, 0, 5, Role.NONE⟩, ⟨1, 0, 1, 9, Role.NONE⟩,
   ⟨2, 0, 2, 12, Role.EXIT⟩, ⟨3, 0, 3, 13, Role.NONE⟩,
   ⟨4, 1, 0, 14, Role.NONE⟩, ⟨5, 1, 1, 12, Role.NONE⟩,
   ⟨6, 1, 2, 6, Role.NONE⟩, ⟨7, 1, 3, 8, Role.NONE⟩,
   ⟨8, 2, 0, 5, Role.ENTRANCE⟩, ⟨9, 2, 1, 2, Role.NONE⟩,
   ⟨10, 2, 2, 3, Role.NONE⟩, ⟨11, 2, 3, 10, Role.NONE⟩]

/-- The reference maze as a constructed value. -/
def miniatureMaze : Maze := ⟨miniatureSquares⟩

/-- The reference squares with the entrance role erased: no square has role
ENTRANCE. -/
def noEntranceSquares : List Square :=
  [⟨0, 0, 0, 5, Role.NONE⟩, ⟨1, 0, 1, 9, Role.NONE⟩,
   ⟨2, 0, 2, 12, Role.EXIT⟩, ⟨3, 0, 3, 13, Role.NONE⟩,
   ⟨4, 1, 0, 14, Role.NONE⟩, ⟨5, 1, 1, 12, Role.NONE⟩,
   ⟨6, 1, 2, 6, Role.NONE⟩, ⟨7, 1, 3, 8, Role.NONE⟩,
   ⟨8, 2, 0, 5, Role.NONE⟩, ⟨9, 2, 1, 2, Role.NONE⟩,
   ⟨10, 2, 2, 3, Role.NONE⟩, ⟨11, 2, 3, 10, Role.NONE⟩]

/-- The reference maze with a second entrance at index 9. -/
def twoEntranceMaze : Maze :=
  ⟨[⟨0, 0, 0, 5, Role.NONE⟩, ⟨1, 0, 1, 9, Role.NONE⟩,
    ⟨2, 0, 2, 12, Role.EXIT⟩, ⟨3, 0, 3, 13, Role.NONE⟩,
    ⟨4, 1, 0, 14, Role.NONE⟩, ⟨5, 1, 1, 12, Role.NONE⟩,
    ⟨6, 1, 2, 6, Role.NONE⟩, ⟨7, 1, 3, 8, Role.NONE⟩,
    ⟨8, 2, 0, 5, Role.ENTRANCE⟩, ⟨9, 2, 1, 2, Role.ENTRANCE⟩,
    ⟨10, 2, 2, 3, Role.NONE⟩, ⟨11, 2, 3, 10, Role.NONE⟩]⟩

/-- C1: the spec says Maze construction fails whenever the ENTRANCE or EXIT
count differs from 1. The code defines `validate_entrance`/`validate_exit`
but `Maze.__post_init__` never calls them (nor does any other code), so a
maze with zero entrances is constructed successfully even though the unused
validator would have rejected it. -/
theorem C1_construction_skips_entrance_validation :
    mkMaze noEntranceSquares = some ⟨noEntranceSquares⟩ ∧
    (noEntranceSquares.countP fun sq => sq.role == Role.ENTRANCE) = 0 ∧
    validate_entrance ⟨noEntranceSquares⟩ = false := by
  refine ⟨by decide, by decide, by decide⟩

/-- C2 counterexample: a maze with two ENTRANCE squares on which
`Maze.entrance` silently returns the first match instead of failing. -/
theorem C2_cex_two_entrances_no_failure :
    (twoEntranceMaze.squares.countP fun sq => sq.role == Role.ENTRANCE) = 2 ∧
    twoEntranceMaze.entranceFind = some ⟨8, 2, 0, 5, Role.ENTRANCE⟩ := by
  refine ⟨by decide, by decide⟩

/-- `List.find?` finds the first match: helper for the accessor claims. -/
theorem find?_first_match {α : Type} {p : α → Bool} {l : List α} {a : α}
    (h : l.find? p = some a) :
    p a = true ∧ ∃ l1 l2, l = l1 ++ a :: l2 ∧ ∀ b ∈ l1, p b = false := by
  induction l with
  | nil => simp [List.find?] at h
  | cons x xs ih =>
    by_cases hx : p x
    · rw [List.find?_cons_of_pos _ hx] at h
      obtain rfl : x = a := by simpa using h
      exact ⟨hx, [], xs, by simp, by simp⟩
    · rw [List.find?_cons_of_neg _ (by simpa using hx)] at h
      obtain ⟨hpa, l1, l2, hl, hl1⟩ := ih h
      refine ⟨hpa, x :: l1, l2, by simp [hl], ?_⟩
      intro b hb
      rcases List.mem_cons.mp hb with rfl | hb
      · simpa using hx
      · exact hl1 b hb

/-- C2 (amended): `Maze.entrance` and `Maze.exit` return the first square in
square order bearing the role, failing (`StopIteration`) exactly when no
square bears it; with multiple matches the first is returned silently. -/
theorem C2_accessor_first_match (m : Maze) :
    (m.entranceFind = none ↔ ∀ sq ∈ m.squares, sq.role ≠ Role.ENTRANCE) ∧
    (m.exitFind = none ↔ ∀ sq ∈ m.squares, sq.role ≠ Role.EXIT) ∧
    (∀ sq, m.entranceFind = some sq →
      sq.role = Role.ENTRANCE ∧
      ∃ l1 l2, m.squares = l1 ++ sq :: l2 ∧
        ∀ t ∈ l1, t.role ≠ Role.ENTRANCE) ∧
    (∀ sq, m.exitFind = some sq →
      sq.role = Role.EXIT ∧
      ∃ l1 l2, m.squares = l1 ++ sq :: l2 ∧ ∀ t ∈ l1, t.role ≠ Role.EXIT) := by
  refine ⟨?_, ?_, ?_, ?_⟩
  · rw [Maze.entranceFind, List.find?_eq_none]
    constructor
    · intro h sq hsq
      simpa using h sq hsq
    · intro h sq hsq
      simpa using h sq hsq
  · rw [Maze.exitFind, List.find?_eq_none]
    constructor
    · intro h sq hsq
      simpa using h sq hsq
    · intro h sq hsq
      simpa using h sq hsq
  · intro sq h
    obtain ⟨hp, l1, l2, hl, hl1⟩ := find?_first_match h
    exact ⟨by simpa using hp, l1, l2, hl, fun t ht => by simpa using hl1 t ht⟩
  · intro sq h
    obtain ⟨hp, l1, l2, hl, hl1⟩ := find?_first_match h
    exact ⟨by simpa using hp, l1, l2, hl, fun t ht => by simpa using hl1 t ht⟩

/-- C9 counterexample: negative indices do not fail; `maze[-1]` returns the
last square by Python tuple-indexing semantics. -/
theorem C9_cex_negative_index_succeeds :
    miniatureMaze.getitem (-1) = some ⟨11, 2, 3, 10, Role.NONE⟩ := by decide

/-- C9 (amended): `Maze.__getitem__` is Python tuple indexing: it returns
the cell at `i` for `0 ≤ i < n`, the cell at `n + i` for `-n ≤ i < 0`, and
fails with IndexError exactly when `i ≥ n` or `i < -n`. -/
theorem C9_getitem_python_indexing (m : Maze) (i : Int) :
    (0 ≤ i → i < m.squares.length → m.getitem i = m.squares[i.toNat]?) ∧
    (i < 0 → -(m.squares.length : Int) ≤ i →
      m.getitem i = m.squares[(i + m.squares.length).toNat]?) ∧
    (m.getitem i = none ↔
      (m.squares.length : Int) ≤ i ∨ i < -(m.squares.length : Int)) := by
  refine ⟨?_, ?_, ?_⟩
  · intro h0 _
    simp [Maze.getitem, pyTupleGet, h0]
  · intro hneg hge
    have h0 : ¬ (0 ≤ i) := by omega
    have h1 : 0 ≤ i + (m.squares.length : Int) := by omega
    simp [Maze.getitem, pyTupleGet, h0, h1]
  · rw [Maze.getitem, pyTupleGet]
    by_cases h0 : 0 ≤ i
    · simp only [h0, if_true]
      rw [List.getElem?_eq_none_iff]
      omega
    · simp only [h0, if_false]
      by_cases h1 : 0 ≤ i + m.squares.length
      · simp only [h1, if_true]
        rw [List.getElem?_eq_none_iff]
        omega
      · simp only [h1, if_false]
        constructor
        · intro _
          omega
        · intro _
          trivial

/-- Concrete instance of the C5 theorem on the reference maze: the
hypotheses hold there and the extracted edge from the entrance to its right
neighbour falls under the characterization. -/
theorem C5_edge_extraction_witness :
    wellFormed miniatureMaze = true ∧
    (∀ s ∈ get_nodes miniatureMaze, s ∈ miniatureMaze.squares) ∧
    (((⟨⟨8, 2, 0, 5, Role.ENTRANCE⟩, ⟨9, 2, 1, 2, Role.NONE⟩⟩ : Edge) ∈
        get_edges miniatureMaze (get_nodes miniatureMaze) ↔
      ∃ s ∈ get_nodes miniatureMaze,
        rightScanSpec miniatureMaze (get_nodes miniatureMaze) s
          ⟨⟨8, 2, 0, 5, Role.ENTRANCE⟩, ⟨9, 2, 1, 2, Role.NONE⟩⟩ ∨
        downScanSpec miniatureMaze (get_nodes miniatureMaze) s
          ⟨⟨8, 2, 0, 5, Role.ENTRANCE⟩, ⟨9, 2, 1, 2, Role.NONE⟩⟩) ∧
    (∀ s ∈ get_nodes miniatureMaze, ∀ e1 e2 : Edge,
      (rightScanSpec miniatureMaze (get_nodes miniatureMaze) s e1 →
        rightScanSpec miniatureMaze (get_nodes miniatureMaze) s e2 →
        e1 = e2) ∧
      (downScanSpec miniatureMaze (get_nodes miniatureMaze) s e1 →
        downScanSpec miniatureMaze (get_nodes miniatureMaze) s e2 →
        e1 = e2))) :=
  ⟨by decide, by decide,
    C5_edge_extraction miniatureMaze (get_nodes miniatureMaze)
      ⟨⟨8, 2, 0, 5, Role.ENTRANCE⟩, ⟨9, 2, 1, 2, Role.NONE⟩⟩
      (by decide) (by decide)⟩

/-- Concrete instance of the C10 theorem on the reference maze, at the
entrance square and the edge to its right neighbour. -/
theorem C10_directional_bits_only_witness :
    wellFormed miniatureMaze = true ∧
    (⟨8, 2, 0, 5, Role.ENTRANCE⟩ : Square) ∈ miniatureMaze.squares ∧
    ((followRight miniatureMaze (get_nodes miniatureMaze)
        ⟨8, 2, 0, 5, Role.ENTRANCE⟩ =
          some ⟨⟨8, 2, 0, 5, Role.ENTRANCE⟩, ⟨9, 2, 1, 2, Role.NONE⟩⟩ ↔
      rightScanSpec miniatureMaze (get_nodes miniatureMaze)
        ⟨8, 2, 0, 5, Role.ENTRANCE⟩
        ⟨⟨8, 2, 0, 5, Role.ENTRANCE⟩, ⟨9, 2, 1, 2, Role.NONE⟩⟩) ∧
    (followDown miniatureMaze (get_nodes miniatureMaze)
        ⟨8, 2, 0, 5, Role.ENTRANCE⟩ =
          some ⟨⟨8, 2, 0, 5, Role.ENTRANCE⟩, ⟨9, 2, 1, 2, Role.NONE⟩⟩ ↔
      downScanSpec miniatureMaze (get_nodes miniatureMaze)
        ⟨8, 2, 0, 5, Role.ENTRANCE⟩
        ⟨⟨8, 2, 0, 5, Role.ENTRANCE⟩, ⟨9, 2, 1, 2, Role.NONE⟩⟩)) :=
  ⟨by decide, by decide,
    C10_directional_bits_only miniatureMaze (get_nodes miniatureMaze)
      ⟨8, 2, 0, 5, Role.ENTRANCE⟩
      ⟨⟨8, 2, 0, 5, Role.ENTRANCE⟩, ⟨9, 2, 1, 2, Role.NONE⟩⟩
      (by decide) (by decide)⟩

/-- `Edge.distance` (`graphs/converter.py`): `math.dist` between the two
endpoints' `(row, column)` points, modelled as the exact Euclidean distance
over ℝ (Python computes this quantity in IEEE double precision). -/
noncomputable def Edge.distance (e : Edge) : ℝ :=
  Real.sqrt (((e.node1.row : ℝ) - e.node2.row) ^ 2 +
    ((e.node1.column : ℝ) - e.node2.column) ^ 2)

/-- `Edge.weight` (`graphs/converter.py`): the distance adjusted by a match
on the target node's role; the source defaults `bonus` to 1 and `penalty`
to 2. -/
noncomputable def Edge.weight (e : Edge) (bonus penalty : ℝ) : ℝ :=
  match e.node2.role with
  | Role.REWARD => e.distance - bonus
  | Role.ENEMY => e.distance + penalty
  | _ => e.distance

/-- The spec's weight rule, written from the spec text: the Euclidean
distance between the endpoints' (row, column) coordinates, minus the bonus
when the target node's role is REWARD, plus the penalty when it is ENEMY,
and the bare distance for every other target role. -/
noncomputable def specWeight (e : Edge) (bonus penalty : ℝ) : ℝ :=
  if e.node2.role = Role.REWARD then
    Real.sqrt (((e.node1.row : ℝ) - e.node2.row) ^ 2 +
      ((e.node1.column : ℝ) - e.node2.column) ^ 2) - bonus
  else if e.node2.role = Role.ENEMY then
    Real.sqrt (((e.node1.row : ℝ) - e.node2.row) ^ 2 +
      ((e.node1.column : ℝ) - e.node2.column) ^ 2) + penalty
  else
    Real.sqrt (((e.node1.row : ℝ) - e.node2.row) ^ 2 +
      ((e.node1.column : ℝ) - e.node2.column) ^ 2)

/-- Flipping an edge twice is the identity. -/
theorem Edge.flip_flip (e : Edge) : e.flip.flip = e := rfl

/-- C6: every extracted undirected edge contributes both of its directed
orientations, the directed edge set is exactly the extracted edges and
their flips, and a directed edge's weight is the Euclidean distance of its
endpoints minus the bonus when the target role is REWARD, plus the penalty
when it is ENEMY, and unchanged otherwise. -/
theorem C6_directed_edges_weights (m : Maze) (nodes : List Square)
    (e : Edge) (bonus penalty : ℝ) :
    (e ∈ get_edges m nodes →
      e ∈ get_directed_edges m nodes ∧
        e.flip ∈ get_directed_edges m nodes) ∧
    (e ∈ get_directed_edges m nodes ↔
      e ∈ get_edges m nodes ∨ e.flip ∈ get_edges m nodes) ∧
    Edge.weight e bonus penalty = specWeight e bonus penalty := by
  have hdir : ∀ d : Edge, d ∈ get_directed_edges m nodes ↔
      d ∈ get_edges m nodes ∨ d.flip ∈ get_edges m nodes := by
    intro d
    rw [get_directed_edges, List.mem_append, List.mem_map]
    constructor
    · rintro (h | ⟨a, ha, hfa⟩)
      · exact Or.inl h
      · refine Or.inr ?_
        rw [← hfa, Edge.flip_flip]
        exact ha
    · rintro (h | h)
      · exact Or.inl h
      · exact Or.inr ⟨d.flip, h, Edge.flip_flip d⟩
  refine ⟨?_, hdir e, ?_⟩
  · intro h
    constructor
    · exact (hdir e).mpr (Or.inl h)
    · refine (hdir e.flip).mpr (Or.inr ?_)
      rw [Edge.flip_flip]
      exact h
  · cases hr : e.node2.role <;>
      simp [Edge.weight, specWeight, Edge.distance, hr]

/-- `validate_corridor` (`models/solution.py`): the assert's condition —
consecutive squares share a row or a column. -/
def validate_corridor (current following : Square) : Bool :=
  current.row == following.row || current.column == following.column

/-- The chain of asserts run by `reduce(validate_corridor, squares)` on a
nonempty sequence: every adjacent pair passes. -/
def corridorOK : List Square → Bool
  | [] => true
  | [_] => true
  | a :: b :: rest => validate_corridor a b && corridorOK (b :: rest)

/-- `Solution.__post_init__` (`models/solution.py`): `squares[0].role` must
be ENTRANCE (an empty tuple raises IndexError there), `squares[-1].role`
must be EXIT, and the reduce over `validate_corridor` must pass every
adjacent pair; `none` models the fatal failure, and on success the stored
squares are exactly the input. -/
def mkSolution (l : List Square) : Option (List Square) :=
  match l with
  | [] => none
  | a :: rest =>
    if (a.role == Role.ENTRANCE) &&
        ((List.getLast (a :: rest) (List.cons_ne_nil a rest)).role ==
          Role.EXIT) &&
        corridorOK (a :: rest) then
      some (a :: rest)
    else none

/-- The corridor check is the pairwise collinearity chain. -/
theorem corridorOK_iff : ∀ l : List Square,
    corridorOK l = true ↔
      List.Chain' (fun a b => a.row = b.row ∨ a.column = b.column) l
  | [] => by simp [corridorOK]
  | [a] => by simp [corridorOK]
  | a :: b :: rest => by
    rw [corridorOK, Bool.and_eq_true, corridorOK_iff (b :: rest),
      List.chain'_cons]
    simp [validate_corridor]

/-- C8: constructing a Solution from a candidate square sequence succeeds
exactly when the sequence is nonempty, its first square has role ENTRANCE,
its last has role EXIT, and every consecutive pair shares a row or a
column; on success the stored value is the input sequence, and on any
violation no Solution is produced. -/
theorem C8_solution_validation (l : List Square) :
    ((mkSolution l).isSome ↔
      ∃ h : l ≠ [], (l.head h).role = Role.ENTRANCE ∧
        (l.getLast h).role = Role.EXIT ∧
        List.Chain' (fun a b => a.row = b.row ∨ a.column = b.column) l) ∧
    (∀ r, mkSolution l = some r → r = l) := by
  constructor
  · match l with
    | [] =>
      simp [mkSolution]
    | a :: rest =>
      rw [mkSolution]
      by_cases hcond : ((a.role == Role.ENTRANCE) &&
          ((List.getLast (a :: rest) (List.cons_ne_nil a rest)).role ==
            Role.EXIT) &&
          corridorOK (a :: rest)) = true
      · rw [if_pos hcond]
        simp only [Bool.and_eq_true, beq_iff_eq] at hcond
        simp only [Option.isSome_some, true_iff]
        exact ⟨List.cons_ne_nil a rest, hcond.1.1, hcond.1.2,
          (corridorOK_iff (a :: rest)).mp hcond.2⟩
      · rw [if_neg hcond]
        simp only [Option.isSome_none, Bool.false_eq_true, false_iff]
        rintro ⟨hne, h1, h2, h3⟩
        apply hcond
        simp only [Bool.and_eq_true, beq_iff_eq]
        exact ⟨⟨h1, h2⟩, (corridorOK_iff (a :: rest)).mpr h3⟩
  · intro r hr
    match l with
    | [] => simp [mkSolution] at hr
    | a :: rest =>
      rw [mkSolution] at hr
      by_cases hcond : ((a.role == Role.ENTRANCE) &&
          ((List.getLast (a :: rest) (List.cons_ne_nil a rest)).role ==
            Role.EXIT) &&
          corridorOK (a :: rest)) = true
      · rw [if_pos hcond] at hr
        exact (Option.some_inj.mp hr).symm
      · rw [if_neg hcond] at hr
        exact absurd hr (by simp)

/-- Vertices of the NetworkX digraph built by `make_graph`
(`graphs/converter.py`): `nx.DiGraph` is constructed from the directed
edge list alone, so a square is a graph vertex exactly when it is an
endpoint of some directed edge; isolated nodes never become vertices. -/
def graphVertices (m : Maze) : List Square :=
  (get_directed_edges m (get_nodes m)).foldr
    (fun e acc => e.node1 :: e.node2 :: acc) []

/-- Successors in the built digraph. -/
def graphSucc (m : Maze) (v : Square) : List Square :=
  ((get_directed_edges m (get_nodes m)).filter
    (fun e => e.node1 == v)).map Edge.node2

/-- One directed arc of the built digraph. -/
def hasArc (m : Maze) (u v : Square) : Prop :=
  (⟨u, v⟩ : Edge) ∈ get_directed_edges m (get_nodes m)

/-- Failure classes of the solver layer as Python raises them. -/
inductive PyError where
  | stopIteration
  | assertionError
deriving DecidableEq, Repr

/-- Breadth-first path search over the digraph, carrying reversed paths
and a visited list. This models the path search inside
`nx.shortest_path` at the precision the solver claims need: the claims
settled below depend only on whether a path is found, never on which of
several paths the library's weighted search would pick. -/
def bfsPaths (succ : Square → List Square) (target : Square) :
    Nat → List (List Square) → List Square → Option (List Square)
  | 0, _, _ => none
  | _ + 1, [], _ => none
  | fuel + 1, p :: queue, visited =>
    match p with
    | [] => bfsPaths succ target fuel queue visited
    | cur :: _ =>
      if cur == target then some p.reverse
      else
        bfsPaths succ target fuel
          (queue ++
            ((succ cur).filter (fun x => !(visited.contains x))).map
              (fun x => x :: p))
          (visited ++ (succ cur).filter (fun x => !(visited.contains x)))

/-- `nx.shortest_path` on the built digraph, modelled by networkx's
documented exception contract: `NodeNotFound` when the source or target is
not a graph vertex and `NetworkXNoPath` when the target is unreachable —
both subclasses of `NetworkXException`, modelled as `none`; otherwise some
path is returned. -/
def nxShortestPath (m : Maze) (source target : Square) :
    Option (List Square) :=
  if source ∈ graphVertices m ∧ target ∈ graphVertices m then
    bfsPaths (graphSucc m) target
      ((graphVertices m).length * (graphVertices m).length + 1)
      [[source]] [source]
  else none

/-- `solve` (`graphs/solver.py`): resolve `maze.entrance` and `maze.exit`
(an uncaught `StopIteration` when absent), run the shortest-path query
under `except nx.NetworkXException: return None`, and wrap the found path
in `Solution(...)`, whose asserts raise an uncaught `AssertionError` on
violation. -/
def solve (m : Maze) : Except PyError (Option (List Square)) :=
  match m.entranceFind with
  | none => .error .stopIteration
  | some source =>
    match m.exitFind with
    | none => .error .stopIteration
    | some target =>
      match nxShortestPath m source target with
      | none => .ok none
      | some p =>
        match mkSolution p with
        | none => .error .assertionError
        | some sol => .ok (some sol)

/-- `solve_all` (`graphs/solver.py`): as `solve` with
`nx.all_shortest_paths`, whose `NetworkXNoPath`/`NodeNotFound` is caught
and turned into `[]`. The claims below depend only on that exception
split, so the collection of minimum-cost paths is modelled by the same
search. -/
def solve_all (m : Maze) : Except PyError (List (List Square)) :=
  match m.entranceFind with
  | none => .error .stopIteration
  | some source =>
    match m.exitFind with
    | none => .error .stopIteration
    | some target =>
      match nxShortestPath m source target with
      | none => .ok []
      | some p =>
        match mkSolution p with
        | none => .error .assertionError
        | some sol => .ok [sol]

/-- Reversed prefix paths carried by the search: a nonempty list whose
reverse is an arc path of the digraph starting at `source`. -/
def goodRev (m : Maze) (source : Square) : List Square → Prop
  | [] => False
  | [a] => a = source
  | a :: b :: rest => hasArc m b a ∧ goodRev m source (b :: rest)

/-- The head of a good reversed path is reachable from the source. -/
theorem goodRev_reach (m : Maze) (source : Square) :
    ∀ (a : Square) (rest : List Square),
      goodRev m source (a :: rest) →
      Relation.ReflTransGen (hasArc m) source a
  | a, [], hg => by
    rw [show goodRev m source [a] = (a = source) from rfl] at hg
    rw [hg]
  | a, b :: rest2, hg => by
    obtain ⟨harc, hg2⟩ := hg
    exact Relation.ReflTransGen.tail (goodRev_reach m source b rest2 hg2)
      harc

/-- Every successor step of the digraph is an arc. -/
theorem hasArc_of_succ {m : Maze} {cur x : Square}
    (h : x ∈ graphSucc m cur) : hasArc m cur x := by
  rw [graphSucc, List.mem_map] at h
  obtain ⟨e, he, hx⟩ := h
  rw [List.mem_filter] at he
  obtain ⟨hmem, hn1⟩ := he
  have h1 : e.node1 = cur := by simpa using hn1
  have hedge : e = ⟨cur, x⟩ := by
    cases e
    simp only [Edge.mk.injEq]
    exact ⟨h1, hx⟩
  rw [hasArc, ← hedge]
  exact hmem

/-- Soundness of the search: a found path implies reachability. -/
theorem bfsPaths_sound (m : Maze) (source target : Square) :
    ∀ (fuel : Nat) (queue : List (List Square)) (visited : List Square)
      (p : List Square),
      (∀ q ∈ queue, goodRev m source q) →
      bfsPaths (graphSucc m) target fuel queue visited = some p →
      Relation.ReflTransGen (hasArc m) source target := by
  intro fuel
  induction fuel with
  | zero =>
    intro queue visited p _ h
    simp [bfsPaths] at h
  | succ fuel ih =>
    intro queue visited p hq h
    match queue with
    | [] => simp [bfsPaths] at h
    | q :: rest =>
      match q with
      | [] =>
        rw [show bfsPaths (graphSucc m) target (fuel + 1)
            ([] :: rest) visited =
            bfsPaths (graphSucc m) target fuel rest visited from rfl] at h
        exact ih rest visited p
          (fun q' hq' => hq q' (List.mem_cons_of_mem _ hq')) h
      | cur :: qrest =>
        by_cases hct : cur = target
        · rw [← hct]
          exact goodRev_reach m source cur qrest
            (hq (cur :: qrest) (List.mem_cons_self _ _))
        · rw [show bfsPaths (graphSucc m) target (fuel + 1)
              ((cur :: qrest) :: rest) visited =
              (if cur == target then some (cur :: qrest).reverse
               else bfsPaths (graphSucc m) target fuel
                (rest ++
                  ((graphSucc m cur).filter
                    (fun x => !(visited.contains x))).map
                    (fun x => x :: (cur :: qrest)))
                (visited ++ (graphSucc m cur).filter
                  (fun x => !(visited.contains x)))) from rfl] at h
          rw [if_neg (by simpa using hct)] at h
          refine ih _ _ p ?_ h
          intro q' hq'
          rcases List.mem_append.mp hq' with hmem | hmem
          · exact hq q' (List.mem_cons_of_mem _ hmem)
          · rw [List.mem_map] at hmem
            obtain ⟨x, hx, hxq⟩ := hmem
            rw [List.mem_filter] at hx
            rw [← hxq]
            exact ⟨hasArc_of_succ hx.1,
              hq (cur :: qrest) (List.mem_cons_self _ _)⟩

/-- C3 counterexample: a maze that Maze construction accepts (see C1) but
that has no ENTRANCE square; on it `maze.entrance` raises `StopIteration`,
which `except nx.NetworkXException` does not catch, so `solve` raises
instead of returning None (and `solve_all` likewise instead of []). -/
theorem C3_cex_missing_entrance_raises :
    mkMaze noEntranceSquares = some ⟨noEntranceSquares⟩ ∧
    solve ⟨noEntranceSquares⟩ = Except.error PyError.stopIteration ∧
    solve_all ⟨noEntranceSquares⟩ = Except.error PyError.stopIteration := by
  refine ⟨by decide, ?_, ?_⟩
  · rw [solve, show Maze.entranceFind ⟨noEntranceSquares⟩ = none from by
      decide]
  · rw [solve_all, show Maze.entranceFind ⟨noEntranceSquares⟩ = none from by
      decide]

/-- C3 (amended): when the maze does have entrance and exit squares,
`solve` returns None and `solve_all` returns [] — without raising —
whenever the exit is unreachable from the entrance in the built digraph
(covering both `NetworkXNoPath` and `NodeNotFound`, which
`except nx.NetworkXException` catches); but when entrance/exit resolution
itself fails because no square bears the role, the accessors raise an
uncaught `StopIteration` (see the counterexample). -/
theorem C3_no_path_returns_none (m : Maze) (source target : Square)
    (hin : m.entranceFind = some source) (hout : m.exitFind = some target)
    (hnp : ¬ Relation.ReflTransGen (hasArc m) source target) :
    solve m = Except.ok none ∧ solve_all m = Except.ok [] := by
  have hpath : nxShortestPath m source target = none := by
    rw [nxShortestPath]
    by_cases hv : source ∈ graphVertices m ∧ target ∈ graphVertices m
    · rw [if_pos hv]
      cases hb : bfsPaths (graphSucc m) target
          ((graphVertices m).length * (graphVertices m).length + 1)
          [[source]] [source] with
      | none => rfl
      | some p =>
        refine absurd (bfsPaths_sound m source target _ [[source]]
          [source] p ?_ hb) hnp
        intro q hq
        rw [List.mem_singleton.mp hq]
        rw [show goodRev m source [source] = (source = source) from rfl]
    · rw [if_neg hv]
  constructor
  · simp only [solve, hin, hout, hpath]
  · simp only [solve_all, hin, hout, hpath]

/-- A 2×1 maze whose entrance and exit are separated by walls on every
side: no edges are extracted, so neither endpoint is a graph vertex. -/
def wallMaze : Maze :=
  ⟨[⟨0, 0, 0, 15, Role.ENTRANCE⟩, ⟨1, 0, 1, 15, Role.EXIT⟩]⟩

/-- Concrete instance of the C3 theorem: on the all-walls 2×1 maze the
solver returns None and the empty list. -/
theorem C3_no_path_returns_none_witness :
    wallMaze.entranceFind = some ⟨0, 0, 0, 15, Role.ENTRANCE⟩ ∧
    wallMaze.exitFind = some ⟨1, 0, 1, 15, Role.EXIT⟩ ∧
    (solve wallMaze = Except.ok none ∧
      solve_all wallMaze = Except.ok []) :=
  ⟨by decide, by decide,
    C3_no_path_returns_none wallMaze ⟨0, 0, 0, 15, Role.ENTRANCE⟩
      ⟨1, 0, 1, 15, Role.EXIT⟩ (by decide) (by decide)
      (by
        have hemp : get_directed_edges wallMaze (get_nodes wallMaze) = [] :=
          by decide
        intro h
        rcases h.cases_head with heq | ⟨c, hc, _⟩
        · exact absurd heq (by decide)
        · rw [hasArc, hemp] at hc
          exact List.not_mem_nil _ hc)⟩

/-- Little-endian 4-byte encoding of one `I` field of
`struct.pack("<2I", ...)` (`persistence/file_format.py`). -/
def u32le (n : Nat) : List Nat :=
  [n % 256, n / 256 % 256, n / 65536 % 256, n / 16777216 % 256]

/-- `FileHeader.write` (`persistence/file_format.py`): the magic marker
`b"MAZE"` (bytes 77, 65, 90, 69), one version byte, then width and height
as `<2I`. -/
def headerBytes (version width height : Nat) : List Nat :=
  77 :: 65 :: 90 :: 69 :: version :: (u32le width ++ u32le height)

/-- `compress` (`persistence/serializer.py`): `(role << 4) | border`. -/
def compress (sq : Square) : Nat :=
  (sq.role.val <<< 4) ||| sq.border

/-- `dump_squares` (`persistence/serializer.py`): the header followed by
one compressed byte per square. `struct.pack` raises for width or height
at or above 2^32 and `array("B", ...)` for a byte value at or above 256;
`none` models those fatal errors. -/
def dump_squares (width height : Nat) (squares : List Square) :
    Option (List Nat) :=
  if width < 4294967296 ∧ height < 4294967296 ∧
      squares.all (fun sq => compress sq < 256) then
    some (headerBytes 1 width height ++ squares.map compress)
  else none

/-- `FileHeader.read` (`persistence/file_format.py`): assert the magic
marker, unpack the version byte and the two little-endian 4-byte fields;
the remaining stream is handed to the body. A short stream makes
`struct.unpack` raise, and a wrong marker fails the assert. -/
def readHeader (bs : List Nat) : Option (Nat × Nat × Nat × List Nat) :=
  match bs with
  | m1 :: m2 :: m3 :: m4 :: v :: w0 :: w1 :: w2 :: w3 ::
      h0 :: h1 :: h2 :: h3 :: rest =>
    if m1 = 77 ∧ m2 = 65 ∧ m3 = 90 ∧ m4 = 69 then
      some (v, w0 + 256 * w1 + 65536 * w2 + 16777216 * w3,
        h0 + 256 * h1 + 65536 * h2 + 16777216 * h3, rest)
    else none
  | _ => none

/-- `deserialize` with `decompress` (`persistence/serializer.py`): byte
`v` at position `i` yields
`Square(i, *divmod(i, width), Border(v & 0xF), Role(v >> 4))`; a role
value outside 0..6 raises `ValueError`. -/
def deserializeAux (w : Nat) : Nat → List Nat → Option (List Square)
  | _, [] => some []
  | i, v :: vs =>
    match Role.ofVal (v >>> 4) with
    | none => none
    | some role =>
      match deserializeAux w (i + 1) vs with
      | none => none
      | some rest => some (⟨i, i / w, i % w, v &&& 15, role⟩ :: rest)

/-- `load_squares` (`persistence/serializer.py`): parse the header, reject
any format version other than 1 (`ValueError`), read `width * height` body
bytes (`FileBody.read` reads at most that many) and deserialize them. -/
def load_squares (bs : List Nat) : Option (List Square) :=
  match readHeader bs with
  | none => none
  | some (v, w, h, rest) =>
    if v = 1 then deserializeAux w 0 (rest.take (w * h))
    else none

/-- Byte-level facts about `compress` on a square whose border fits the
4-bit wall mask. -/
theorem compress_facts (sq : Square) (hb : sq.border < 16) :
    compress sq < 256 ∧ compress sq >>> 4 = sq.role.val ∧
      compress sq &&& 15 = sq.border := by
  rw [compress]
  cases hr : sq.role <;>
    (set b := sq.border with hbdef
     interval_cases b <;> exact ⟨by decide, by decide, by decide⟩)

/-- Parsing the written header recovers version, width, height and the
body stream. -/
theorem readHeader_headerBytes (w h : Nat) (body : List Nat)
    (hw : w < 4294967296) (hh : h < 4294967296) :
    readHeader (headerBytes 1 w h ++ body) = some (1, w, h, body) := by
  simp only [headerBytes, u32le, List.cons_append, List.append_assoc,
    List.nil_append]
  rw [readHeader]
  rw [if_pos (by norm_num)]
  have hwd : w % 256 + 256 * (w / 256 % 256) + 65536 * (w / 65536 % 256) +
      16777216 * (w / 16777216 % 256) = w := by omega
  have hhd : h % 256 + 256 * (h / 256 % 256) + 65536 * (h / 65536 % 256) +
      16777216 * (h / 16777216 % 256) = h := by omega
  rw [hwd, hhd]

/-- Deserializing the compressed bytes of squares whose fields are
row-major-consistent from offset `i` reproduces the squares. -/
theorem deserializeAux_of (w : Nat) :
    ∀ (l : List Square) (i : Nat),
      (∀ (j : Nat) (hj : j < l.length),
        (l.get ⟨j, hj⟩).index = i + j ∧
        (l.get ⟨j, hj⟩).row = (i + j) / w ∧
        (l.get ⟨j, hj⟩).column = (i + j) % w ∧
        (l.get ⟨j, hj⟩).border < 16) →
      deserializeAux w i (l.map compress) = some l
  | [], i, _ => by simp [deserializeAux]
  | a :: rest, i, hfields => by
    obtain ⟨hai, har, hac, hab⟩ :
        a.index = i + 0 ∧ a.row = (i + 0) / w ∧
          a.column = (i + 0) % w ∧ a.border < 16 :=
      hfields 0 (by simp)
    rw [Nat.add_zero] at hai har hac
    have hcf := compress_facts a hab
    have hrec : deserializeAux w (i + 1) (rest.map compress) = some rest :=
      deserializeAux_of w rest (i + 1) (fun j hj => by
        have hfj := hfields (j + 1) (by simpa using Nat.succ_lt_succ hj)
        have harith : i + (j + 1) = i + 1 + j := by omega
        rw [harith] at hfj
        exact hfj)
    have hsq : (⟨i, i / w, i % w, compress a &&& 15, a.role⟩ : Square) =
        a := by
      cases a with
      | mk idx row col bor rol =>
        simp only [Square.mk.injEq]
        exact ⟨hai.symm, har.symm, hac.symm, hcf.2.2, trivial⟩
    simp only [List.map_cons, deserializeAux]
    rw [hcf.2.1,
      show Role.ofVal a.role.val = some a.role from by
        cases a.role <;> rfl, hrec]
    exact congrArg (fun x => some (x :: rest)) hsq

/-- C7: dumping a valid grid to the byte layout and loading the bytes back
reproduces the squares cell-for-cell (index, row, column, border and role
all equal). -/
theorem C7_dump_load_roundtrip (m : Maze) (hwf : wellFormed m = true)
    (hw : m.width < 4294967296) (hh : m.height < 4294967296)
    (hb : ∀ sq ∈ m.squares, sq.border < 16) :
    ∃ bs, dump_squares m.width m.height m.squares = some bs ∧
      load_squares bs = some m.squares := by
  have hall : m.squares.all (fun sq => compress sq < 256) = true := by
    rw [List.all_eq_true]
    intro sq hsq
    simpa using (compress_facts sq (hb sq hsq)).1
  refine ⟨headerBytes 1 m.width m.height ++ m.squares.map compress, ?_, ?_⟩
  · rw [dump_squares, if_pos ⟨hw, hh, hall⟩]
  · rw [load_squares, readHeader_headerBytes _ _ _ hw hh]
    show (if (1 : Nat) = 1 then
        deserializeAux m.width 0
          (List.take (m.width * m.height) (List.map compress m.squares))
      else none) = some m.squares
    rw [if_pos rfl]
    have hlen : (m.squares.map compress).length = m.width * m.height := by
      rw [List.length_map, wf_length hwf]
    rw [← hlen, List.take_length]
    apply deserializeAux_of
    intro j hj
    have hj' : j < m.squares.length := by simpa using hj
    obtain ⟨hidx, hrow, hcol⟩ := wf_sqAt hwf hj'
    have hget : m.squares.get ⟨j, hj⟩ = m.sqAt j := by
      rw [sqAt_eq_getElem hj', List.get_eq_getElem]
    have hmem : m.sqAt j ∈ m.squares := by
      rw [sqAt_eq_getElem hj']
      exact List.getElem_mem hj'
    rw [hget]
    exact ⟨by rw [hidx]; omega, by rw [hrow]; congr 1; omega,
      by rw [hcol]; congr 1; omega, hb _ hmem⟩

/-- Concrete instance of the C7 round trip on the reference maze. -/
theorem C7_dump_load_roundtrip_witness :
    wellFormed miniatureMaze = true ∧
    miniatureMaze.width < 4294967296 ∧
    miniatureMaze.height < 4294967296 ∧
    (∀ sq ∈ miniatureMaze.squares, sq.border < 16) ∧
    (∃ bs, dump_squares miniatureMaze.width miniatureMaze.height
        miniatureMaze.squares = some bs ∧
      load_squares bs = some miniatureMaze.squares) :=
  ⟨by decide, by decide, by decide, by decide,
    C7_dump_load_roundtrip miniatureMaze (by decide) (by decide)
      (by decide) (by decide)⟩

end MazeSolver
